import Mathlib

/-!
Verification of the zenith local file cache (`src/pgxn/neon/file_cache.c`) and
page-store client (`src/pgxn/neon/libpagestore.c`) against their natural-language
specification.

The C code is shallowly embedded: shared-memory state becomes an explicit state
record, each lock-protected critical section becomes a pure state transformer,
machine integers become `Nat` with an explicit `% 2 ^ 64` (resp. `% 2 ^ 32`)
where C overflow semantics matter, and the one fallible operation
(`get_shard_number` with zero shards, undefined behaviour in C) returns
`Option`.  The model is sequential: each cache operation is the composition of
its critical sections, matching a single backend running the code with no
interleaving, which is the setting of the spec's properties P1-P4.
-/

/-! ## Constants of file_cache.c -/

/-- BLOCKS_PER_CHUNK from file_cache.c (128 pages, 1MB chunk). -/
def BLOCKS_PER_CHUNK : Nat := 128

/-- BLCKSZ, the Postgres page size (8192 bytes). -/
def BLCKSZ : Nat := 8192

/-- MB from file_cache.c: `(uint64)1024*1024`. -/
def MB : Nat := 1048576

/-- SIZE_MB_TO_CHUNKS from file_cache.c:
`(uint32)((size) * MB / BLCKSZ / BLOCKS_PER_CHUNK)`. -/
def SIZE_MB_TO_CHUNKS (size : Nat) : Nat := size * MB / BLCKSZ / BLOCKS_PER_CHUNK

/-! ## Data model of the local file cache -/

/-- BufferTag as used by file_cache.c: relation identity (`rnode` collapsed to
one number since the code only copies it around), fork number and the
chunk-aligned block number. -/
structure BufferTag where
  rnode : Nat
  forkNum : Nat
  blockNum : Nat
deriving DecidableEq

/-- FileCacheEntry from file_cache.c.  The 32-bit-word array
`uint32 bitmap[BLOCKS_PER_CHUNK/32]` is modelled as its sequence of bits,
`bitmap i` being bit `i & 31` of word `i >> 5`.  The intrusive `lru_node` is
modelled by membership of the entry's key in the LRU list of the state. -/
structure FileCacheEntry where
  key : BufferTag
  offset : Nat
  access_count : Nat
  bitmap : Nat → Bool

/-- The shared state of the cache: FileCacheControl (`size`, `used`, `lru`),
the hash index `lfc_hash` (a list of entries with distinct keys), the mapped
slab bytes (`slab c p` = content of page `p` of chunk `c`; a whole page is one
abstract value), and the GUCs `lfc_size_limit` / `lfc_max_size` (in MB). -/
structure LfcState where
  entries : List FileCacheEntry
  lru : List BufferTag
  size : Nat
  used : Nat
  slab : Nat → Nat → Nat
  sizeLimit : Nat
  maxSize : Nat

/-- The chunk key for a block: `tag.blockNum = blkno & ~(BLOCKS_PER_CHUNK-1)`. -/
def chunkTag (rnode forkNum blkno : Nat) : BufferTag :=
  ⟨rnode, forkNum, blkno / BLOCKS_PER_CHUNK * BLOCKS_PER_CHUNK⟩

/-- `chunk_offs = blkno & (BLOCKS_PER_CHUNK-1)`. -/
def chunkOffs (blkno : Nat) : Nat := blkno % BLOCKS_PER_CHUNK

/-- `hash_search(lfc_hash, &tag, HASH_FIND, ...)`. -/
def findEntry (st : LfcState) (k : BufferTag) : Option FileCacheEntry :=
  st.entries.find? (fun e => e.key == k)

/-- Update (through the stable entry pointer) the entry with key `k`. -/
def modifyEntry (l : List FileCacheEntry) (k : BufferTag)
    (f : FileCacheEntry → FileCacheEntry) : List FileCacheEntry :=
  l.map (fun e => if e.key == k then f e else e)

/-- The all-zero bitmap (`memset(entry->bitmap, 0, sizeof entry->bitmap)`). -/
def freshBitmap : Nat → Bool := fun _ => false

/-- `entry->bitmap[chunk_offs >> 5] |= (1 << (chunk_offs & 31))`. -/
def setPageBit (bm : Nat → Bool) (i : Nat) : Nat → Bool :=
  fun j => if j = i then true else bm j

/-- `entry->bitmap[chunk_offs >> 5] &= ~(1 << (chunk_offs & 31))`. -/
def clearPageBit (bm : Nat → Bool) (i : Nat) : Nat → Bool :=
  fun j => if j = i then false else bm j

/-- Whether 32-bit word `w` of the bitmap is zero
(`entry->bitmap[w] == 0`). -/
def wordIsZero (bm : Nat → Bool) (w : Nat) : Bool :=
  (List.range 32).all (fun j => !bm (w * 32 + j))

/-- The scan `for (i = 0; i < BLOCKS_PER_CHUNK/32; i++) if (bitmap[i] != 0)`:
some word of the bitmap is non-zero. -/
def anyWordNonzero (bm : Nat → Bool) : Bool :=
  (List.range (BLOCKS_PER_CHUNK / 32)).any (fun w => !wordIsZero bm w)

/-! ## Critical sections of the cache operations -/

/-- `entry->access_count++` (the increment part). -/
def bumpPin (x : FileCacheEntry) : FileCacheEntry :=
  { x with access_count := x.access_count + 1 }

/-- `--entry->access_count` (the decrement part). -/
def dropPin (x : FileCacheEntry) : FileCacheEntry :=
  { x with access_count := x.access_count - 1 }

/-- Pin an entry, file_cache.c:512-514 and 557-559:
`if (entry->access_count++ == 0) dlist_delete(&entry->lru_node);`.
The `none` branch is never taken by the callers (they pin an entry the same
critical section just found). -/
def pinEntry (st : LfcState) (k : BufferTag) : LfcState :=
  match findEntry st k with
  | none => st
  | some e =>
    { st with
      entries := modifyEntry st.entries k bumpPin,
      lru := if e.access_count = 0 then st.lru.erase k else st.lru }

/-- Unpin an entry, file_cache.c:520-523 and 593-596:
`if (--entry->access_count == 0) dlist_push_tail(&lfc_ctl->lru, ...);`. -/
def unpinEntry (st : LfcState) (k : BufferTag) : LfcState :=
  match findEntry st k with
  | none => st
  | some e =>
    { st with
      entries := modifyEntry st.entries k dropPin,
      lru := if e.access_count = 1 then st.lru ++ [k] else st.lru }

/-- Set the bitmap bit of page `i` of the chunk with key `k`. -/
def setBitEntry (st : LfcState) (k : BufferTag) (i : Nat) : LfcState :=
  { st with
    entries := modifyEntry st.entries k
      (fun x => { x with bitmap := setPageBit x.bitmap i }) }

/-- The `memcpy` into the slab at chunk `chunk`, page `page` (file_cache.c:590). -/
def slabWrite (st : LfcState) (chunk page v : Nat) : LfcState :=
  { st with slab := fun c p => if c = chunk ∧ p = page then v else st.slab c p }

/-- First critical section of `lfc_write` for a key that is not in the index
(file_cache.c:561-587): admission.  If `used >= SIZE_MB_TO_CHUNKS(size_limit)`
and the LRU is non-empty, the LRU head is popped, its offset stolen and the
victim removed from the index; otherwise a fresh slot
`entry->offset = lfc_ctl->size++; lfc_ctl->used += 1` is allocated.  The new
entry gets `access_count = 1` and a zeroed bitmap.  Returns the state and the
offset of the new entry.  The inner `[]` branch of the match is unreachable:
the condition guarantees the LRU is non-empty. -/
def writeAdmitNew (st : LfcState) (k : BufferTag) : LfcState × Nat :=
  if SIZE_MB_TO_CHUNKS st.sizeLimit ≤ st.used ∧ st.lru ≠ [] then
    match st.lru with
    | [] => (st, 0)
    | v :: rest =>
      let voff := ((st.entries.find? (fun e => e.key == v)).map
        (fun e => e.offset)).getD 0
      ({ st with
         entries := ⟨k, voff, 1, freshBitmap⟩ ::
           st.entries.filter (fun e => !(e.key == v)),
         lru := rest }, voff)
  else
    ({ st with
       entries := ⟨k, st.size, 1, freshBitmap⟩ :: st.entries,
       used := st.used + 1,
       size := st.size + 1 }, st.size)

/-- Second critical section of `lfc_write` (file_cache.c:593-599): unpin, then
set the bitmap bit, the latter only if the cache is still enabled. -/
def writeFinish (st : LfcState) (k : BufferTag) (i : Nat) : LfcState :=
  let st1 := unpinEntry st k
  if st1.sizeLimit ≠ 0 then setBitEntry st1 k i else st1

/-! ## The cache operations -/

/-- lfc_write (file_cache.c:533-600). -/
def lfc_write (st : LfcState) (rnode forkNum blkno v : Nat) : LfcState :=
  if st.sizeLimit = 0 then st
  else
    let tag := chunkTag rnode forkNum blkno
    let offs := chunkOffs blkno
    match findEntry st tag with
    | some e =>
      let st1 := pinEntry st tag
      let st2 := slabWrite st1 e.offset offs v
      writeFinish st2 tag offs
    | none =>
      let p := writeAdmitNew st tag
      let st2 := slabWrite p.1 p.2 offs v
      writeFinish st2 tag offs

/-- lfc_read (file_cache.c:485-527).  Returns the new state and `some page`
when the page was found (the C function returns `true` and fills `buffer`),
`none` on a miss. -/
def lfc_read (st : LfcState) (rnode forkNum blkno : Nat) :
    LfcState × Option Nat :=
  if st.sizeLimit = 0 then (st, none)
  else
    let tag := chunkTag rnode forkNum blkno
    let offs := chunkOffs blkno
    match findEntry st tag with
    | none => (st, none)
    | some e =>
      if e.bitmap offs then
        let st1 := pinEntry st tag
        let v := st1.slab e.offset offs
        let st2 := unpinEntry st1 tag
        (st2, some v)
      else (st, none)

/-- lfc_cache_contains (file_cache.c:389-411). -/
def lfc_cache_contains (st : LfcState) (rnode forkNum blkno : Nat) : Bool :=
  if st.sizeLimit = 0 then false
  else
    match findEntry st (chunkTag rnode forkNum blkno) with
    | none => false
    | some e => e.bitmap (chunkOffs blkno)

/-- lfc_evict (file_cache.c:416-478).  `garbage` is the value read from the
uninitialized stack variable `has_remaining_pages` when the word scan finds no
non-zero word: the C code declares `bool has_remaining_pages;` and assigns it
only inside `if (entry->bitmap[i] != 0)`, so when the whole bitmap is zero the
subsequent read is of an indeterminate value. -/
def lfc_evict (st : LfcState) (rnode forkNum blkno : Nat) (garbage : Bool) :
    LfcState :=
  if st.sizeLimit = 0 then st
  else
    let tag := chunkTag rnode forkNum blkno
    let offs := chunkOffs blkno
    match findEntry st tag with
    | none => st
    | some e =>
      let bm := clearPageBit e.bitmap offs
      let st1 := { st with
        entries := modifyEntry st.entries tag
          (fun x => { x with bitmap := clearPageBit x.bitmap offs }) }
      if wordIsZero bm (offs / 32) then
        let has_remaining_pages := if anyWordNonzero bm then true else garbage
        if !has_remaining_pages then
          { st1 with lru := tag :: st1.lru.erase tag }
        else st1
      else st1

/-- One iteration body of the shrink loop in lfc_change_limit_hook
(file_cache.c:214-223): pop the LRU head, remove it from the index (the
hole-punch `madvise` only instructs the OS and does not change the model
state), `lfc_ctl->used -= 1`. -/
def shrinkPop (st : LfcState) : LfcState :=
  match st.lru with
  | [] => st
  | v :: rest =>
    { st with
      entries := st.entries.filter (fun e => !(e.key == v)),
      lru := rest,
      used := st.used - 1 }

/-- The `while (new_size < lfc_ctl->used && !dlist_is_empty(&lfc_ctl->lru))`
loop.  Each iteration pops one LRU element, so `st.lru.length` iterations
always suffice; the fuel makes the recursion structural. -/
def shrinkLoopFuel (newSize : Nat) : Nat → LfcState → LfcState
  | 0, st => st
  | fuel + 1, st =>
    if newSize < st.used ∧ st.lru ≠ [] then
      shrinkLoopFuel newSize fuel (shrinkPop st)
    else st

/-- lfc_change_limit_hook (file_cache.c:202-226). -/
def lfc_change_limit_hook (st : LfcState) (newvalMb : Nat) : LfcState :=
  shrinkLoopFuel (SIZE_MB_TO_CHUNKS newvalMb) st.lru.length st

/-- Setting `neon.file_cache_size_limit`: lfc_check_limit_hook
(file_cache.c:191-200) rejects values above `lfc_max_size` (the GUC keeps its
old value), otherwise the GUC machinery stores the new value and runs
lfc_change_limit_hook. -/
def lfc_set_size_limit (st : LfcState) (newvalMb : Nat) : LfcState :=
  if st.maxSize < newvalMb then st
  else lfc_change_limit_hook { st with sizeLimit := newvalMb } newvalMb

/-- The initial state after lfc_shmem_startup (file_cache.c:167-169):
`size = 0, used = 0`, empty LRU, empty index, zeroed (hole-punched) slab. -/
def initState (maxSizeMb sizeLimitMb : Nat) : LfcState :=
  { entries := []
    lru := []
    size := 0
    used := 0
    slab := fun _ _ => 0
    sizeLimit := sizeLimitMb
    maxSize := maxSizeMb }

/-- The operations a backend can run against the cache.  `evict` carries the
value the uninitialized `has_remaining_pages` would be read as. -/
inductive LfcOp where
  | read (rnode forkNum blkno : Nat)
  | write (rnode forkNum blkno v : Nat)
  | evict (rnode forkNum blkno : Nat) (garbage : Bool)
  | contains (rnode forkNum blkno : Nat)
  | setLimit (mb : Nat)

/-- State after one operation (`contains` takes the lock shared and mutates
nothing). -/
def applyOp (st : LfcState) : LfcOp → LfcState
  | .read rnode forkNum blkno => (lfc_read st rnode forkNum blkno).1
  | .write rnode forkNum blkno v => lfc_write st rnode forkNum blkno v
  | .evict rnode forkNum blkno g => lfc_evict st rnode forkNum blkno g
  | .contains _ _ _ => st
  | .setLimit mb => lfc_set_size_limit st mb

/-- State after a sequence of operations. -/
def applyOps (st : LfcState) : List LfcOp → LfcState
  | [] => st
  | op :: rest => applyOps (applyOp st op) rest

/-! ## Invariants -/

/-- Structural invariant of the shared cache state: keys are distinct in the
index, the LRU is duplicate-free, LRU members are indexed, an entry is linked
in the LRU iff it is unpinned, and the accounting fields agree. -/
structure LfcInv (st : LfcState) : Prop where
  nodupKeys : (st.entries.map (fun e => e.key)).Nodup
  nodupLru : st.lru.Nodup
  lruHasEntry : ∀ k ∈ st.lru, ∃ e ∈ st.entries, e.key = k
  linkIff : ∀ e ∈ st.entries, (e.access_count = 0 ↔ e.key ∈ st.lru)
  usedEq : st.used = st.entries.length
  usedLeSize : st.used ≤ st.size

/-- Between operations every pin has been released. -/
def allUnpinned (st : LfcState) : Prop :=
  ∀ e ∈ st.entries, e.access_count = 0

/-- The invariant of quiescent (between-operations) states. -/
def LfcQuiescent (st : LfcState) : Prop :=
  LfcInv st ∧ allUnpinned st

/-- Concrete state used to exhibit the uninitialized-variable dependence of
lfc_evict: chunk (1,0,0) holds only page 0 and sits behind chunk (2,0,0) in
the LRU. -/
def evictDemoState : LfcState :=
  { entries := [⟨⟨1, 0, 0⟩, 0, 0, setPageBit freshBitmap 0⟩,
                ⟨⟨2, 0, 0⟩, 1, 0, setPageBit freshBitmap 0⟩]
    lru := [⟨2, 0, 0⟩, ⟨1, 0, 0⟩]
    size := 2
    used := 2
    slab := fun _ _ => 0
    sizeLimit := 2
    maxSize := 2 }

/-- Concrete state with pinned entries (both chunks detached from the LRU,
reads in flight against them), used to exercise the unpin transitions. -/
def pinnedDemoState : LfcState :=
  { entries := [⟨⟨1, 0, 0⟩, 0, 1, freshBitmap⟩,
                ⟨⟨2, 0, 0⟩, 1, 2, freshBitmap⟩]
    lru := []
    size := 2
    used := 2
    slab := fun _ _ => 0
    sizeLimit := 2
    maxSize := 2 }

/-! ## libpagestore.c: reconnect backoff (pageserver_connect) -/

/-- MIN_RECONNECT_INTERVAL_USEC (libpagestore.c:39). -/
def MIN_RECONNECT_INTERVAL_USEC : Nat := 1000

/-- MAX_RECONNECT_INTERVAL_USEC (libpagestore.c:40). -/
def MAX_RECONNECT_INTERVAL_USEC : Nat := 1000000

/-- Modulus of the C type `uint64_t` of `delay_us`. -/
def UINT64_LIMIT : Nat := 18446744073709551616

/-- The two function-static variables of pageserver_connect
(libpagestore.c:316-317). -/
structure BackoffState where
  last_connect_time : Nat
  delay_us : Nat
deriving DecidableEq

/-- Result of one pass through the backoff logic: how long the caller slept
and the statics afterwards. -/
structure BackoffStep where
  sleep_us : Nat
  next : BackoffState
deriving DecidableEq

/-- The backoff logic of pageserver_connect (libpagestore.c:331-341, 367):
`now` is `GetCurrentTimestamp()` at entry, `finish` the timestamp stored into
`last_connect_time` after the connection attempt.  If less than
MAX_RECONNECT_INTERVAL_USEC elapsed since the last attempt the caller sleeps
`delay_us` and `delay_us *= 2` (a uint64_t, hence the modulus); otherwise
`delay_us = MIN_RECONNECT_INTERVAL_USEC`. -/
def pageserver_connect_backoff (st : BackoffState) (now finish : Nat) :
    BackoffStep :=
  let us_since_last_connect := now - st.last_connect_time
  if us_since_last_connect < MAX_RECONNECT_INTERVAL_USEC then
    { sleep_us := st.delay_us
      next := { last_connect_time := finish
                delay_us := st.delay_us * 2 % UINT64_LIMIT } }
  else
    { sleep_us := 0
      next := { last_connect_time := finish
                delay_us := MIN_RECONNECT_INTERVAL_USEC } }

/-- Statics at process start: `last_connect_time = 0`,
`delay_us = MIN_RECONNECT_INTERVAL_USEC`. -/
def backoffInit : BackoffState :=
  { last_connect_time := 0, delay_us := MIN_RECONNECT_INTERVAL_USEC }

/-- Run a sequence of connect attempts; each list element is the pair
(timestamp at entry, timestamp after the attempt). -/
def runBackoff (st : BackoffState) : List (Nat × Nat) → BackoffState
  | [] => st
  | t :: rest => runBackoff (pageserver_connect_backoff st t.1 t.2).next rest

/-! ## libpagestore.c: reconnect budget (pageserver_send) -/

/-- Severity with which a failed connect attempt is reported:
`n_reconnect_attempts < max_reconnect_attempts ? LOG : ERROR`
(libpagestore.c:583).  At `fatalError` severity the `ereport` inside
pageserver_connect throws, surfacing the failure to the caller. -/
inductive PsSeverity where
  | log
  | fatalError
deriving DecidableEq

/-- Outcome of the reconnect loop of pageserver_send. -/
inductive ConnectOutcome where
  | ok
  | fatal
  | pending (n : Nat)
deriving DecidableEq

/-- Result of the reconnect loop: the severities of the failed attempts in
order, the outcome, and the value of `n_reconnect_attempts` afterwards. -/
structure SendConnectResult where
  trace : List PsSeverity
  outcome : ConnectOutcome
  finalAttempts : Nat
deriving DecidableEq

/-- The reconnect loop of pageserver_send (libpagestore.c:581-589):
`while (!pageserver_connect(shard_no, n < max ? LOG : ERROR)) n += 1;` with
`n_reconnect_attempts = 0` after a successful connect.  The input list gives
the outcome of each connect attempt (`true` = connected).  A failure reported
at ERROR severity throws, leaving the loop (and the counter as it was). -/
def pageserver_send_connect_loop (maxAtt : Nat) (n : Nat) :
    List Bool → SendConnectResult
  | [] => ⟨[], .pending n, n⟩
  | success :: rest =>
    if success then ⟨[], .ok, 0⟩
    else if n < maxAtt then
      let r := pageserver_send_connect_loop maxAtt (n + 1) rest
      ⟨.log :: r.trace, r.outcome, r.finalAttempts⟩
    else ⟨[.fatalError], .fatal, n⟩

/-! ## libpagestore.c: shard map change invalidation (load_shard_map) -/

/-- The per-backend connection state load_shard_map acts on:
`page_servers[i].conn != NULL` for each of the MAX_SHARDS slots, and the
process-local `pagestore_local_counter`. -/
structure PagestoreConnState where
  conns : List Bool
  localCounter : Nat
deriving DecidableEq

/-- The invalidation step at the end of load_shard_map (libpagestore.c:266-277),
after the seqlock retry loop has produced a consistent snapshot whose end
counter is `observedEnd`: if it differs from the local counter, disconnect
every open shard connection and store the observed counter. -/
def load_shard_map_sync (st : PagestoreConnState) (observedEnd : Nat) :
    PagestoreConnState :=
  if st.localCounter ≠ observedEnd then
    { conns := st.conns.map (fun c => if c then false else c)
      localCounter := observedEnd }
  else st

/-! ## libpagestore.c: shard routing (get_shard_number, ParseShardMap) -/

/-- Modulus of `uint32`. -/
def U32 : Nat := 4294967296

/-- Modelled from the spec: `murmurhash32`, the stable 32-bit mix used by
get_shard_number.  Its definition (the MurmurHash3 32-bit finalizer) lives in
the host database's `common/hashfn.h`, which is not part of this repository;
the spec fixes the canonical choice MurmurHash3-32. -/
def murmurhash32 (x : Nat) : Nat :=
  let h1 := x % U32
  let h2 := h1 ^^^ (h1 / 65536)
  let h3 := h2 * 2246822507 % U32
  let h4 := h3 ^^^ (h3 / 8192)
  let h5 := h4 * 3266489917 % U32
  h5 ^^^ (h5 / 65536)

/-- Modelled from the spec: `hash_combine`, the deterministic combine
`a ^ (b + 0x9e3779b9 + (a<<6) + (a>>2))` on uint32, also from the host
database's `common/hashfn.h`. -/
def hash_combine (a b : Nat) : Nat :=
  a ^^^ ((b + 2654435769 + a * 64 % U32 + a / 4) % U32)

/-- get_shard_number (libpagestore.c:285-302):
`hash = murmurhash32(relNode); hash = hash_combine(hash,
murmurhash32(blockNum / stripe_size)); return hash % n_shards;`.
The C performs `% n_shards` with no guard; with `n_shards = 0` this is
undefined behaviour, modelled as `none`. -/
def get_shard_number (relNode blockNum stripeSize numShards : Nat) :
    Option Nat :=
  let hash := hash_combine (murmurhash32 relNode)
    (murmurhash32 (blockNum / stripeSize))
  if numShards = 0 then none else some (hash % numShards)

/-- The comma-splitting loop of ParseShardMap (libpagestore.c:140-171): a
segment before a comma is always recorded (even when empty); the segment after
the last comma is recorded only when non-empty (`connstr_len == 0 && sep ==
NULL` breaks), so the empty string yields no shards and a trailing comma is
ignored. -/
def splitOnComma (acc : List Char) : List Char → List (List Char)
  | [] => if acc.isEmpty then [] else [acc]
  | c :: rest =>
    if c = ',' then acc :: splitOnComma [] rest
    else splitOnComma (acc ++ [c]) rest

/-- ParseShardMap (libpagestore.c:129-176) restricted to the shard count: the
parse succeeds iff at most `maxShards` segments are produced and every segment
is shorter than `maxConnstringSize`; on success `num_shards` is the number of
segments. -/
def ParseShardMap (maxShards maxConnstringSize : Nat) (connstr : List Char) :
    Option Nat :=
  let segs := splitOnComma [] connstr
  if segs.length ≤ maxShards ∧ ∀ s ∈ segs, s.length < maxConnstringSize then
    some segs.length
  else none

/-! ## Theorems: page-store client -/

lemma sendLoop_replicate_false (maxAtt : Nat) :
    ∀ (k n : Nat) (rest : List Bool), n + k ≤ maxAtt →
      pageserver_send_connect_loop maxAtt n (List.replicate k false ++ rest) =
        ⟨List.replicate k .log ++
           (pageserver_send_connect_loop maxAtt (n + k) rest).trace,
         (pageserver_send_connect_loop maxAtt (n + k) rest).outcome,
         (pageserver_send_connect_loop maxAtt (n + k) rest).finalAttempts⟩ := by
  intro k
  induction k with
  | zero => intro n rest _; simp [pageserver_send_connect_loop]
  | succ k ih =>
    intro n rest h
    have hn : n < maxAtt := by omega
    have hrec := ih (n + 1) rest (by omega)
    have heq : n + 1 + k = n + (k + 1) := by omega
    rw [heq] at hrec
    simp only [List.replicate_succ, List.cons_append,
      pageserver_send_connect_loop, hn, if_true]
    simp [hrec]

/-- C8: in pageserver_send, starting a run of consecutive connection failures
with the attempt counter at 0, the first `max_reconnect_attempts` failures are
reported at LOG severity and retried, a success exits the loop and resets the
counter to zero, and the `(max_reconnect_attempts + 1)`-th consecutive failure
is reported at ERROR severity, i.e. surfaced as a fatal error to the caller. -/
theorem pageserver_send_reconnect_budget :
    ∀ (maxAtt k : Nat), k ≤ maxAtt →
      (pageserver_send_connect_loop maxAtt 0 (List.replicate k false ++ [true]) =
         ⟨List.replicate k .log, .ok, 0⟩)
      ∧ (pageserver_send_connect_loop maxAtt 0
           (List.replicate (maxAtt + 1) false) =
         ⟨List.replicate maxAtt .log ++ [.fatalError], .fatal, maxAtt⟩) := by
  intro maxAtt k hk
  constructor
  · have h := sendLoop_replicate_false maxAtt k 0 [true] (by omega)
    simpa [pageserver_send_connect_loop] using h
  · have h := sendLoop_replicate_false maxAtt maxAtt 0 [false] (by omega)
    rw [show List.replicate (maxAtt + 1) false =
      List.replicate maxAtt false ++ [false] from List.replicate_succ' ..]
    simpa [pageserver_send_connect_loop] using h

/-- Witness for C8 at `max_reconnect_attempts = 2` and a run of one failure. -/
theorem pageserver_send_reconnect_budget_witness :
    (pageserver_send_connect_loop 2 0 [false, true] = ⟨[.log], .ok, 0⟩)
    ∧ (pageserver_send_connect_loop 2 0 [false, false, false] =
       ⟨[.log, .log, .fatalError], .fatal, 2⟩) :=
  pageserver_send_reconnect_budget 2 1 (by decide)

/-- C7 counterexample: ten consecutive connect attempts each made less than
MAX_RECONNECT_INTERVAL after the previous one drive `delay_us` to
1000 · 2¹⁰ = 1024000 µs, strictly above MAX_RECONNECT_INTERVAL (1 s), so the
claimed invariant `delay_us ∈ [MIN, MAX]` is false. -/
theorem backoff_delay_exceeds_max_counterexample :
    MAX_RECONNECT_INTERVAL_USEC <
      (runBackoff backoffInit (List.replicate 10 (0, 0))).delay_us := by
  decide

/-- C7 (amended): whenever less than MAX_RECONNECT_INTERVAL has elapsed since
the previous attempt, the caller sleeps `delay_us` and `delay_us` is doubled
as a uint64 with no upper bound; whenever at least MAX_RECONNECT_INTERVAL has
elapsed, `delay_us` is reset to MIN_RECONNECT_INTERVAL. -/
theorem backoff_step_behavior :
    ∀ (st : BackoffState) (now finish : Nat),
      (now - st.last_connect_time < MAX_RECONNECT_INTERVAL_USEC →
        pageserver_connect_backoff st now finish =
          ⟨st.delay_us, ⟨finish, st.delay_us * 2 % UINT64_LIMIT⟩⟩)
      ∧ (MAX_RECONNECT_INTERVAL_USEC ≤ now - st.last_connect_time →
        pageserver_connect_backoff st now finish =
          ⟨0, ⟨finish, MIN_RECONNECT_INTERVAL_USEC⟩⟩) := by
  intro st now finish
  constructor
  · intro h
    simp [pageserver_connect_backoff, if_pos h]
  · intro h
    simp [pageserver_connect_backoff, if_neg (not_lt.mpr h)]

/-- Witness for C7's amended statement at the initial statics. -/
theorem backoff_step_behavior_witness :
    pageserver_connect_backoff backoffInit 0 7 = ⟨1000, ⟨7, 2000⟩⟩ :=
  (backoff_step_behavior backoffInit 0 7).1 (by decide)

/-- C9: after load_shard_map's consistent snapshot, if the observed end
counter differs from the process-local counter then every open shard
connection is disconnected and the local counter is set to the observed one;
if they are equal, this mechanism closes nothing and the state is unchanged. -/
theorem load_shard_map_invalidation :
    ∀ (st : PagestoreConnState) (observedEnd : Nat),
      (st.localCounter ≠ observedEnd →
        (∀ b ∈ (load_shard_map_sync st observedEnd).conns, b = false)
        ∧ (load_shard_map_sync st observedEnd).localCounter = observedEnd)
      ∧ (st.localCounter = observedEnd →
        load_shard_map_sync st observedEnd = st) := by
  intro st observedEnd
  constructor
  · intro h
    refine ⟨?_, by simp [load_shard_map_sync, h]⟩
    intro b hb
    simp only [load_shard_map_sync, if_pos h, List.mem_map] at hb
    obtain ⟨c, _, hc⟩ := hb
    cases c <;> simp_all
  · intro h
    simp [load_shard_map_sync, h]

/-- Witness for C9 with two shards, the first connected. -/
theorem load_shard_map_invalidation_witness :
    (∀ b ∈ (load_shard_map_sync ⟨[true, false], 0⟩ 1).conns, b = false)
    ∧ (load_shard_map_sync ⟨[true, false], 0⟩ 1).localCounter = 1 :=
  (load_shard_map_invalidation ⟨[true, false], 0⟩ 1).1 (by decide)

/-- C10: get_shard_number hashes the relation identity and
`blockNum / stripe_size` and reduces modulo the shard count with no guard:
with at least one shard the result is defined and strictly below the shard
count, the default empty `neon.pageserver_connstring` parses to zero shards,
and with zero shards the modulo-by-zero is reached and no value is defined. -/
theorem get_shard_number_spec :
    ∀ (relNode blockNum stripeSize numShards maxShards maxConn : Nat),
      (1 ≤ numShards →
        ∃ s, get_shard_number relNode blockNum stripeSize numShards = some s
          ∧ s < numShards)
      ∧ ParseShardMap maxShards maxConn [] = some 0
      ∧ get_shard_number relNode blockNum stripeSize 0 = none := by
  intro relNode blockNum stripeSize numShards maxShards maxConn
  refine ⟨?_, ?_, by simp [get_shard_number]⟩
  · intro h
    have hn : numShards ≠ 0 := by omega
    unfold get_shard_number
    rw [if_neg hn]
    exact ⟨_, rfl, Nat.mod_lt _ (by omega)⟩
  · simp [ParseShardMap, splitOnComma, List.isEmpty_nil, Nat.zero_le]

/-- Witness for C10 with three shards. -/
theorem get_shard_number_spec_witness :
    (∃ s, get_shard_number 5 70000 32768 3 = some s ∧ s < 3)
    ∧ ParseShardMap 128 64 [] = some 0
    ∧ get_shard_number 5 70000 32768 0 = none :=
  ⟨(get_shard_number_spec 5 70000 32768 3 128 64).1 (by decide),
   (get_shard_number_spec 5 70000 32768 3 128 64).2.1,
   (get_shard_number_spec 5 70000 32768 0 128 64).2.2⟩

/-- C3 (code evaluated at the failing input): evicting the last cached page of
chunk (1,0,0) zeroes its whole bitmap, and whether the chunk is then moved to
the LRU head depends on the value read from the uninitialized
`has_remaining_pages`: read as `true` the LRU is left unchanged (chunk (2,0,0)
stays ahead), read as `false` the chunk is pushed to the LRU head as the spec
requires. -/
theorem lfc_evict_uninitialized_dependence :
    (lfc_evict evictDemoState 1 0 0 true).lru =
      [⟨2, 0, 0⟩, ⟨1, 0, 0⟩]
    ∧ (lfc_evict evictDemoState 1 0 0 false).lru =
      [⟨1, 0, 0⟩, ⟨2, 0, 0⟩] := by
  decide

/-! ## Helper lemmas for the cache model -/

lemma SIZE_MB_TO_CHUNKS_eq (n : Nat) : SIZE_MB_TO_CHUNKS n = n := by
  simp only [SIZE_MB_TO_CHUNKS, MB, BLCKSZ, BLOCKS_PER_CHUNK]
  omega

@[simp] lemma pinEntry_used (st : LfcState) (k : BufferTag) :
    (pinEntry st k).used = st.used := by
  unfold pinEntry; cases findEntry st k <;> rfl

@[simp] lemma pinEntry_size (st : LfcState) (k : BufferTag) :
    (pinEntry st k).size = st.size := by
  unfold pinEntry; cases findEntry st k <;> rfl

@[simp] lemma pinEntry_slab (st : LfcState) (k : BufferTag) :
    (pinEntry st k).slab = st.slab := by
  unfold pinEntry; cases findEntry st k <;> rfl

@[simp] lemma pinEntry_sizeLimit (st : LfcState) (k : BufferTag) :
    (pinEntry st k).sizeLimit = st.sizeLimit := by
  unfold pinEntry; cases findEntry st k <;> rfl

@[simp] lemma pinEntry_maxSize (st : LfcState) (k : BufferTag) :
    (pinEntry st k).maxSize = st.maxSize := by
  unfold pinEntry; cases findEntry st k <;> rfl

@[simp] lemma unpinEntry_used (st : LfcState) (k : BufferTag) :
    (unpinEntry st k).used = st.used := by
  unfold unpinEntry; cases findEntry st k <;> rfl

@[simp] lemma unpinEntry_size (st : LfcState) (k : BufferTag) :
    (unpinEntry st k).size = st.size := by
  unfold unpinEntry; cases findEntry st k <;> rfl

@[simp] lemma unpinEntry_slab (st : LfcState) (k : BufferTag) :
    (unpinEntry st k).slab = st.slab := by
  unfold unpinEntry; cases findEntry st k <;> rfl

@[simp] lemma unpinEntry_sizeLimit (st : LfcState) (k : BufferTag) :
    (unpinEntry st k).sizeLimit = st.sizeLimit := by
  unfold unpinEntry; cases findEntry st k <;> rfl

@[simp] lemma unpinEntry_maxSize (st : LfcState) (k : BufferTag) :
    (unpinEntry st k).maxSize = st.maxSize := by
  unfold unpinEntry; cases findEntry st k <;> rfl

@[simp] lemma setBitEntry_used (st : LfcState) (k : BufferTag) (i : Nat) :
    (setBitEntry st k i).used = st.used := rfl

@[simp] lemma setBitEntry_size (st : LfcState) (k : BufferTag) (i : Nat) :
    (setBitEntry st k i).size = st.size := rfl

@[simp] lemma setBitEntry_lru (st : LfcState) (k : BufferTag) (i : Nat) :
    (setBitEntry st k i).lru = st.lru := rfl

@[simp] lemma setBitEntry_slab (st : LfcState) (k : BufferTag) (i : Nat) :
    (setBitEntry st k i).slab = st.slab := rfl

@[simp] lemma setBitEntry_sizeLimit (st : LfcState) (k : BufferTag) (i : Nat) :
    (setBitEntry st k i).sizeLimit = st.sizeLimit := rfl

@[simp] lemma slabWrite_entries (st : LfcState) (c p v : Nat) :
    (slabWrite st c p v).entries = st.entries := rfl

@[simp] lemma slabWrite_lru (st : LfcState) (c p v : Nat) :
    (slabWrite st c p v).lru = st.lru := rfl

@[simp] lemma slabWrite_used (st : LfcState) (c p v : Nat) :
    (slabWrite st c p v).used = st.used := rfl

@[simp] lemma slabWrite_size (st : LfcState) (c p v : Nat) :
    (slabWrite st c p v).size = st.size := rfl

@[simp] lemma slabWrite_sizeLimit (st : LfcState) (c p v : Nat) :
    (slabWrite st c p v).sizeLimit = st.sizeLimit := rfl

@[simp] lemma slabWrite_maxSize (st : LfcState) (c p v : Nat) :
    (slabWrite st c p v).maxSize = st.maxSize := rfl

lemma findEntry_some {st : LfcState} {k : BufferTag} {e : FileCacheEntry}
    (h : findEntry st k = some e) : e ∈ st.entries ∧ e.key = k := by
  refine ⟨List.mem_of_find?_eq_some h, ?_⟩
  have := List.find?_some h
  simpa using this

lemma findEntry_none {st : LfcState} {k : BufferTag}
    (h : findEntry st k = none) : ∀ e ∈ st.entries, e.key ≠ k := by
  intro e he
  have := List.find?_eq_none.mp h e he
  simpa using this

lemma modifyEntry_keys {l : List FileCacheEntry} {k : BufferTag}
    {f : FileCacheEntry → FileCacheEntry} (hf : ∀ x, (f x).key = x.key) :
    (modifyEntry l k f).map (fun e => e.key) = l.map (fun e => e.key) := by
  simp only [modifyEntry, List.map_map]
  refine List.map_congr_left (fun x _ => ?_)
  by_cases hx : x.key == k <;> simp [Function.comp, hx, hf]

lemma modifyEntry_length (l : List FileCacheEntry) (k : BufferTag)
    (f : FileCacheEntry → FileCacheEntry) :
    (modifyEntry l k f).length = l.length := by
  simp [modifyEntry]

lemma find?_modifyEntry {l : List FileCacheEntry} {k : BufferTag}
    {f : FileCacheEntry → FileCacheEntry} (hf : ∀ x, (f x).key = x.key)
    (k' : BufferTag) :
    (modifyEntry l k f).find? (fun e => e.key == k') =
      (l.find? (fun e => e.key == k')).map
        (fun x => if x.key == k then f x else x) := by
  have hp : ((fun e : FileCacheEntry => e.key == k') ∘
      (fun e => if e.key == k then f e else e)) =
      (fun e : FileCacheEntry => e.key == k') := by
    funext x
    by_cases hx : x.key == k <;> simp [Function.comp, hx, hf]
  simp only [modifyEntry, List.find?_map, hp]

lemma modifyEntry_comp {l : List FileCacheEntry} {k : BufferTag}
    {f g : FileCacheEntry → FileCacheEntry} (hf : ∀ x, (f x).key = x.key) :
    modifyEntry (modifyEntry l k f) k g = modifyEntry l k (fun x => g (f x)) := by
  simp only [modifyEntry, List.map_map]
  refine List.map_congr_left (fun x _ => ?_)
  by_cases hx : x.key == k
  · have hfx : ((f x).key == k) = true := by rw [hf]; exact hx
    simp [Function.comp, hx, hfx]
  · simp [Function.comp, hx]

lemma modifyEntry_congr {l : List FileCacheEntry} {k : BufferTag}
    {f g : FileCacheEntry → FileCacheEntry} (h : ∀ x, f x = g x) :
    modifyEntry l k f = modifyEntry l k g := by
  simp only [modifyEntry]
  exact List.map_congr_left (fun x _ => by by_cases hx : x.key == k <;> simp [hx, h])

lemma modifyEntry_id (l : List FileCacheEntry) (k : BufferTag) :
    modifyEntry l k (fun x => x) = l := by
  simp [modifyEntry]

lemma modifyEntry_not_mem {l : List FileCacheEntry} {k : BufferTag}
    {f : FileCacheEntry → FileCacheEntry} (h : ∀ x ∈ l, x.key ≠ k) :
    modifyEntry l k f = l := by
  simp only [modifyEntry]
  refine List.map_congr_left (fun x hx => ?_) |>.trans (List.map_id l)
  have : (x.key == k) = false := by simpa using h x hx
  simp [this]

lemma key_unique {l : List FileCacheEntry}
    (hnd : (l.map (fun e => e.key)).Nodup) {a b : FileCacheEntry}
    (ha : a ∈ l) (hb : b ∈ l) (hk : a.key = b.key) : a = b :=
  List.inj_on_of_nodup_map hnd ha hb hk

lemma length_filter_out_key {l : List FileCacheEntry} {vk : BufferTag}
    (hnd : (l.map (fun e => e.key)).Nodup) (hex : ∃ e ∈ l, e.key = vk) :
    (l.filter (fun e => !(e.key == vk))).length + 1 = l.length := by
  induction l with
  | nil => simp at hex
  | cons a t ih =>
    simp only [List.map_cons, List.nodup_cons] at hnd
    by_cases ha : a.key = vk
    · have ht : t.filter (fun e => !(e.key == vk)) = t := by
        refine List.filter_eq_self.mpr (fun x hx => ?_)
        have : x.key ≠ vk := by
          intro hxk
          exact hnd.1 (by rw [ha, ← hxk]; exact List.mem_map_of_mem _ hx)
        simpa using this
      simp [List.filter_cons, ha, ht]
    · have hex' : ∃ e ∈ t, e.key = vk := by
        rcases hex with ⟨e, he, hke⟩
        rcases List.mem_cons.mp he with rfl | ht
        · exact absurd hke ha
        · exact ⟨e, ht, hke⟩
      have := ih hnd.2 hex'
      simp only [List.filter_cons, show ((a.key == vk) = false) from by simpa using ha]
      simpa using this

lemma mem_erase_append_iff {l : List BufferTag} {k : BufferTag}
    (hk : k ∈ l) (j : BufferTag) : j ∈ l.erase k ++ [k] ↔ j ∈ l := by
  by_cases hj : j = k
  · subst hj; simp [hk]
  · simp [List.mem_append, List.mem_erase_of_ne hj, hj]

lemma mem_cons_erase_iff {l : List BufferTag} {k : BufferTag}
    (hk : k ∈ l) (j : BufferTag) : j ∈ k :: l.erase k ↔ j ∈ l := by
  by_cases hj : j = k
  · subst hj; simp [hk]
  · simp [hj, List.mem_erase_of_ne hj]

lemma nodup_erase_append {l : List BufferTag} {k : BufferTag}
    (hnd : l.Nodup) : (l.erase k ++ [k]).Nodup := by
  refine List.Nodup.append (hnd.erase k) (List.nodup_singleton k) ?_
  intro x hx hx'
  simp only [List.mem_singleton] at hx'
  subst hx'
  exact ((hnd.mem_erase_iff).mp hx).1 rfl

lemma nodup_cons_erase {l : List BufferTag} {k : BufferTag}
    (hnd : l.Nodup) : (k :: l.erase k).Nodup := by
  refine List.nodup_cons.mpr ⟨?_, hnd.erase k⟩
  intro hk
  exact ((hnd.mem_erase_iff).mp hk).1 rfl

lemma unpinEntry_slabWrite (st : LfcState) (c p v : Nat) (k : BufferTag) :
    unpinEntry (slabWrite st c p v) k = slabWrite (unpinEntry st k) c p v := by
  unfold unpinEntry slabWrite findEntry
  dsimp only
  cases h : st.entries.find? (fun e => e.key == k) <;> simp [h]

lemma setBitEntry_slabWrite (st : LfcState) (c p v : Nat) (k : BufferTag)
    (i : Nat) :
    setBitEntry (slabWrite st c p v) k i = slabWrite (setBitEntry st k i) c p v :=
  rfl

lemma bumpPin_key (x : FileCacheEntry) : (bumpPin x).key = x.key := rfl

lemma dropPin_key (x : FileCacheEntry) : (dropPin x).key = x.key := rfl

lemma modifyEntry_drop_bump (l : List FileCacheEntry) (k : BufferTag) :
    modifyEntry (modifyEntry l k bumpPin) k dropPin = l := by
  rw [modifyEntry_comp bumpPin_key]
  have h : ∀ x : FileCacheEntry, dropPin (bumpPin x) = x := fun x => rfl
  rw [modifyEntry_congr h, modifyEntry_id]

lemma unpin_pin_eq (st : LfcState) (k : BufferTag) (e : FileCacheEntry)
    (hfind : findEntry st k = some e) (h0 : e.access_count = 0) :
    unpinEntry (pinEntry st k) k = { st with lru := st.lru.erase k ++ [k] } := by
  have hkey := (findEntry_some hfind).2
  have hpin : pinEntry st k = { st with
      entries := modifyEntry st.entries k bumpPin,
      lru := st.lru.erase k } := by
    unfold pinEntry
    simp only [hfind]
    rw [if_pos h0]
  have hfind2 : findEntry { st with
      entries := modifyEntry st.entries k bumpPin,
      lru := st.lru.erase k } k = some (bumpPin e) := by
    show (modifyEntry st.entries k bumpPin).find? (fun x => x.key == k) =
      some (bumpPin e)
    rw [find?_modifyEntry bumpPin_key k]
    unfold findEntry at hfind
    rw [hfind]
    simp [hkey]
  rw [hpin]
  unfold unpinEntry
  simp only [hfind2]
  have hc : (bumpPin e).access_count = 1 := by simp [bumpPin, h0]
  rw [if_pos hc]
  simp only [modifyEntry_drop_bump]

lemma modifyEntry_cons (x : FileCacheEntry) (l : List FileCacheEntry)
    (k : BufferTag) (f : FileCacheEntry → FileCacheEntry) :
    modifyEntry (x :: l) k f =
      (if x.key == k then f x else x) :: modifyEntry l k f := rfl

lemma writeFinish_slabWrite (st : LfcState) (c p v : Nat) (k : BufferTag)
    (i : Nat) :
    writeFinish (slabWrite st c p v) k i = slabWrite (writeFinish st k i) c p v := by
  simp only [writeFinish]
  rw [unpinEntry_slabWrite]
  simp only [slabWrite_sizeLimit]
  by_cases h : (unpinEntry st k).sizeLimit ≠ 0
  · rw [if_pos h, if_pos h, setBitEntry_slabWrite]
  · rw [if_neg h, if_neg h]

lemma writeFinish_new (stA : LfcState) (tag : BufferTag) (offs : Nat)
    (noff : Nat) (tail : List FileCacheEntry)
    (hen : stA.sizeLimit ≠ 0)
    (he : stA.entries = ⟨tag, noff, 1, freshBitmap⟩ :: tail)
    (htail : ∀ x ∈ tail, x.key ≠ tag) :
    writeFinish stA tag offs =
      { stA with
        entries := ⟨tag, noff, 0, setPageBit freshBitmap offs⟩ :: tail,
        lru := stA.lru ++ [tag] } := by
  have hfindA : findEntry stA tag = some ⟨tag, noff, 1, freshBitmap⟩ := by
    unfold findEntry
    rw [he]
    exact List.find?_cons_of_pos _ (by simp)
  have hmod : ∀ g : FileCacheEntry → FileCacheEntry,
      modifyEntry stA.entries tag g = g ⟨tag, noff, 1, freshBitmap⟩ :: tail := by
    intro g
    rw [he, modifyEntry_cons, if_pos (by simp), modifyEntry_not_mem htail]
  have hunpin : unpinEntry stA tag =
      { stA with
        entries := ⟨tag, noff, 0, freshBitmap⟩ :: tail,
        lru := stA.lru ++ [tag] } := by
    unfold unpinEntry
    simp only [hfindA]
    rw [hmod dropPin]
    simp [dropPin]
  simp only [writeFinish]
  rw [hunpin]
  rw [if_pos hen]
  unfold setBitEntry
  rw [show ({ stA with
        entries := ⟨tag, noff, 0, freshBitmap⟩ :: tail,
        lru := stA.lru ++ [tag] } : LfcState).entries =
      (⟨tag, noff, 0, freshBitmap⟩ : FileCacheEntry) :: tail from rfl]
  rw [modifyEntry_cons, if_pos (by simp), modifyEntry_not_mem htail]

lemma lfc_read_hit_eq (st : LfcState) (r f b : Nat) (e : FileCacheEntry)
    (hen : st.sizeLimit ≠ 0)
    (hfind : findEntry st (chunkTag r f b) = some e)
    (hbit : e.bitmap (chunkOffs b) = true)
    (h0 : e.access_count = 0) :
    lfc_read st r f b =
      ({ st with lru := st.lru.erase (chunkTag r f b) ++ [chunkTag r f b] },
       some (st.slab e.offset (chunkOffs b))) := by
  unfold lfc_read
  rw [if_neg hen]
  simp only [hfind]
  rw [if_pos hbit]
  rw [unpin_pin_eq st _ e hfind h0]
  simp only [pinEntry_slab]

lemma lfc_write_found_eq (st : LfcState) (r f b v : Nat) (e : FileCacheEntry)
    (hen : st.sizeLimit ≠ 0)
    (hfind : findEntry st (chunkTag r f b) = some e)
    (h0 : e.access_count = 0) :
    lfc_write st r f b v =
      slabWrite (setBitEntry
        { st with lru := st.lru.erase (chunkTag r f b) ++ [chunkTag r f b] }
        (chunkTag r f b) (chunkOffs b)) e.offset (chunkOffs b) v := by
  unfold lfc_write
  rw [if_neg hen]
  simp only [hfind]
  rw [writeFinish_slabWrite]
  simp only [writeFinish]
  simp only [unpinEntry_sizeLimit, pinEntry_sizeLimit]
  rw [if_pos hen]
  rw [unpin_pin_eq st _ e hfind h0]

lemma lfc_write_new_fresh_eq (st : LfcState) (r f b v : Nat)
    (hen : st.sizeLimit ≠ 0)
    (hnone : findEntry st (chunkTag r f b) = none)
    (hcond : ¬(SIZE_MB_TO_CHUNKS st.sizeLimit ≤ st.used ∧ st.lru ≠ [])) :
    lfc_write st r f b v =
      slabWrite { st with
        entries := ⟨chunkTag r f b, st.size, 0,
          setPageBit freshBitmap (chunkOffs b)⟩ :: st.entries,
        lru := st.lru ++ [chunkTag r f b],
        used := st.used + 1,
        size := st.size + 1 } st.size (chunkOffs b) v := by
  unfold lfc_write
  rw [if_neg hen]
  simp only [hnone]
  have hadm : writeAdmitNew st (chunkTag r f b) =
      ({ st with
         entries := ⟨chunkTag r f b, st.size, 1, freshBitmap⟩ :: st.entries,
         used := st.used + 1,
         size := st.size + 1 }, st.size) := by
    unfold writeAdmitNew
    rw [if_neg hcond]
  rw [hadm]
  dsimp only
  rw [writeFinish_slabWrite]
  rw [writeFinish_new
    { st with
      entries := ⟨chunkTag r f b, st.size, 1, freshBitmap⟩ :: st.entries,
      used := st.used + 1,
      size := st.size + 1 }
    (chunkTag r f b) (chunkOffs b) st.size st.entries hen rfl
    (findEntry_none hnone)]

lemma lfc_write_new_steal_eq (st : LfcState) (r f b v : Nat)
    (vk : BufferTag) (rest : List BufferTag) (ve : FileCacheEntry)
    (hen : st.sizeLimit ≠ 0)
    (hnone : findEntry st (chunkTag r f b) = none)
    (hused : SIZE_MB_TO_CHUNKS st.sizeLimit ≤ st.used)
    (hlru : st.lru = vk :: rest)
    (hv : findEntry st vk = some ve) :
    lfc_write st r f b v =
      slabWrite { st with
        entries := ⟨chunkTag r f b, ve.offset, 0,
          setPageBit freshBitmap (chunkOffs b)⟩ ::
          st.entries.filter (fun e => !(e.key == vk)),
        lru := rest ++ [chunkTag r f b] } ve.offset (chunkOffs b) v := by
  unfold lfc_write
  rw [if_neg hen]
  simp only [hnone]
  have hadm : writeAdmitNew st (chunkTag r f b) =
      ({ st with
         entries := ⟨chunkTag r f b, ve.offset, 1, freshBitmap⟩ ::
           st.entries.filter (fun e => !(e.key == vk)),
         lru := rest }, ve.offset) := by
    unfold writeAdmitNew
    rw [if_pos ⟨hused, by rw [hlru]; exact List.cons_ne_nil _ _⟩]
    unfold findEntry at hv
    simp only [hlru, hv]
    simp
  rw [hadm]
  dsimp only
  rw [writeFinish_slabWrite]
  rw [writeFinish_new
    { st with
      entries := ⟨chunkTag r f b, ve.offset, 1, freshBitmap⟩ ::
        st.entries.filter (fun e => !(e.key == vk)),
      lru := rest }
    (chunkTag r f b) (chunkOffs b) ve.offset
    (st.entries.filter (fun e => !(e.key == vk))) hen rfl
    (fun x hx => findEntry_none hnone x (List.mem_of_mem_filter hx))]

lemma quiescent_init (M L : Nat) : LfcQuiescent (initState M L) := by
  refine ⟨⟨?_, ?_, ?_, ?_, ?_, ?_⟩, ?_⟩ <;> simp [initState, allUnpinned]

lemma quiescent_parts (st st' : LfcState) (k : BufferTag)
    (f : FileCacheEntry → FileCacheEntry)
    (hq : LfcQuiescent st)
    (hfk : ∀ x, (f x).key = x.key)
    (hfc : ∀ x, (f x).access_count = x.access_count)
    (he : st'.entries = modifyEntry st.entries k f)
    (hnd : st'.lru.Nodup)
    (hmem : ∀ j, j ∈ st'.lru ↔ j ∈ st.lru)
    (hu : st'.used = st.used) (hs : st'.size = st.size) :
    LfcQuiescent st' := by
  obtain ⟨hinv, hunp⟩ := hq
  have hmem_entries : ∀ e' ∈ st'.entries, ∃ x ∈ st.entries,
      e'.key = x.key ∧ e'.access_count = x.access_count := by
    intro e' he'
    rw [he] at he'
    simp only [modifyEntry, List.mem_map] at he'
    obtain ⟨x, hx, rfl⟩ := he'
    refine ⟨x, hx, ?_, ?_⟩ <;> by_cases hxk : x.key == k <;> simp [hxk, hfk, hfc]
  refine ⟨⟨?_, hnd, ?_, ?_, ?_, ?_⟩, ?_⟩
  · rw [he, modifyEntry_keys hfk]
    exact hinv.nodupKeys
  · intro j hj
    obtain ⟨e, hel, hek⟩ := hinv.lruHasEntry j ((hmem j).mp hj)
    refine ⟨if e.key == k then f e else e, ?_, ?_⟩
    · rw [he]
      exact List.mem_map_of_mem _ hel
    · by_cases hek' : (e.key == k) = true
      · rw [if_pos hek', hfk e]
        exact hek
      · rw [if_neg hek']
        exact hek
  · intro e' he'
    obtain ⟨x, hx, hk1, hk2⟩ := hmem_entries e' he'
    rw [hk2, hk1, hmem x.key]
    exact hinv.linkIff x hx
  · rw [hu, he, modifyEntry_length]
    exact hinv.usedEq
  · rw [hu, hs]
    exact hinv.usedLeSize
  · intro e' he'
    obtain ⟨x, hx, _, hk2⟩ := hmem_entries e' he'
    rw [hk2]
    exact hunp x hx

lemma quiescent_write_fresh_parts (st st' : LfcState) (newE : FileCacheEntry)
    (hq : LfcQuiescent st)
    (hkey : ∀ e ∈ st.entries, e.key ≠ newE.key)
    (hcnt : newE.access_count = 0)
    (he : st'.entries = newE :: st.entries)
    (hl : st'.lru = st.lru ++ [newE.key])
    (hu : st'.used = st.used + 1) (hs : st'.size = st.size + 1) :
    LfcQuiescent st' := by
  obtain ⟨hinv, hunp⟩ := hq
  have hknotlru : newE.key ∉ st.lru := by
    intro hmem
    obtain ⟨e, hel, hek⟩ := hinv.lruHasEntry _ hmem
    exact hkey e hel hek
  refine ⟨⟨?_, ?_, ?_, ?_, ?_, ?_⟩, ?_⟩
  · rw [he]
    simp only [List.map_cons, List.nodup_cons]
    refine ⟨fun hmem => ?_, hinv.nodupKeys⟩
    obtain ⟨e, hel, hek⟩ := List.mem_map.mp hmem
    exact hkey e hel hek
  · rw [hl]
    refine List.Nodup.append hinv.nodupLru (List.nodup_singleton _) ?_
    intro x hx hx'
    simp only [List.mem_singleton] at hx'
    subst hx'
    exact hknotlru hx
  · intro j hj
    rw [hl] at hj
    rcases List.mem_append.mp hj with hj | hj
    · obtain ⟨e, hel, hek⟩ := hinv.lruHasEntry j hj
      exact ⟨e, by rw [he]; exact List.mem_cons_of_mem _ hel, hek⟩
    · simp only [List.mem_singleton] at hj
      subst hj
      exact ⟨newE, by rw [he]; exact List.mem_cons_self _ _, rfl⟩
  · intro e he'
    rw [he] at he'
    rw [hl]
    rcases List.mem_cons.mp he' with rfl | he'
    · simp [hcnt]
    · have h0 := hunp e he'
      have hkl : e.key ∈ st.lru := (hinv.linkIff e he').mp h0
      simp [h0, hkl]
  · rw [hu, he]
    simp [hinv.usedEq]
  · have := hinv.usedLeSize
    omega
  · intro e he'
    rw [he] at he'
    rcases List.mem_cons.mp he' with rfl | he'
    · exact hcnt
    · exact hunp e he'

lemma quiescent_write_steal_parts (st st' : LfcState) (newE : FileCacheEntry)
    (vk : BufferTag) (rest : List BufferTag)
    (hq : LfcQuiescent st)
    (hkey : ∀ e ∈ st.entries, e.key ≠ newE.key)
    (hcnt : newE.access_count = 0)
    (hlru : st.lru = vk :: rest)
    (he : st'.entries = newE :: st.entries.filter (fun e => !(e.key == vk)))
    (hl : st'.lru = rest ++ [newE.key])
    (hu : st'.used = st.used) (hs : st'.size = st.size) :
    LfcQuiescent st' := by
  obtain ⟨hinv, hunp⟩ := hq
  have hvmem : vk ∈ st.lru := by rw [hlru]; exact List.mem_cons_self _ _
  have hvex : ∃ e ∈ st.entries, e.key = vk := hinv.lruHasEntry vk hvmem
  have hknotlru : newE.key ∉ st.lru := by
    intro hmem
    obtain ⟨e, hel, hek⟩ := hinv.lruHasEntry _ hmem
    exact hkey e hel hek
  have hrestnd : rest.Nodup := by
    have h := hinv.nodupLru
    rw [hlru] at h
    exact (List.nodup_cons.mp h).2
  have hvnotrest : vk ∉ rest := by
    have h := hinv.nodupLru
    rw [hlru] at h
    exact (List.nodup_cons.mp h).1
  have hfilter_sub : ∀ x ∈ st.entries.filter (fun e => !(e.key == vk)),
      x ∈ st.entries := fun x hx => List.mem_of_mem_filter hx
  have hfilter_ne : ∀ x ∈ st.entries.filter (fun e => !(e.key == vk)),
      x.key ≠ vk := by
    intro x hx
    have := List.of_mem_filter hx
    simpa using this
  refine ⟨⟨?_, ?_, ?_, ?_, ?_, ?_⟩, ?_⟩
  · rw [he]
    simp only [List.map_cons, List.nodup_cons]
    constructor
    · intro hmem
      obtain ⟨e, hel, hek⟩ := List.mem_map.mp hmem
      exact hkey e (hfilter_sub e hel) hek
    · exact hinv.nodupKeys.sublist
        (List.Sublist.map _ (List.filter_sublist _))
  · rw [hl]
    refine List.Nodup.append hrestnd (List.nodup_singleton _) ?_
    intro x hx hx'
    simp only [List.mem_singleton] at hx'
    subst hx'
    exact hknotlru (by rw [hlru]; exact List.mem_cons_of_mem _ hx)
  · intro j hj
    rw [hl] at hj
    rcases List.mem_append.mp hj with hj | hj
    · have hjl : j ∈ st.lru := by rw [hlru]; exact List.mem_cons_of_mem _ hj
      obtain ⟨e, hel, hek⟩ := hinv.lruHasEntry j hjl
      have hne : e.key ≠ vk := by
        rw [hek]
        intro hjv
        exact hvnotrest (hjv ▸ hj)
      refine ⟨e, ?_, hek⟩
      rw [he]
      exact List.mem_cons_of_mem _ (List.mem_filter.mpr ⟨hel, by simpa using hne⟩)
    · simp only [List.mem_singleton] at hj
      subst hj
      exact ⟨newE, by rw [he]; exact List.mem_cons_self _ _, rfl⟩
  · intro e he'
    rw [he] at he'
    rw [hl]
    rcases List.mem_cons.mp he' with rfl | he'
    · simp [hcnt]
    · have hmem := hfilter_sub e he'
      have h0 := hunp e hmem
      have hne := hfilter_ne e he'
      have hklru : e.key ∈ st.lru := (hinv.linkIff e hmem).mp h0
      have hkrest : e.key ∈ rest := by
        rw [hlru] at hklru
        rcases List.mem_cons.mp hklru with h | h
        · exact absurd h hne
        · exact h
      simp [h0, hkrest]
  · rw [hu, he]
    have h1 := length_filter_out_key hinv.nodupKeys hvex
    have h2 := hinv.usedEq
    simp only [List.length_cons]
    omega
  · rw [hu, hs]
    exact hinv.usedLeSize
  · intro e he'
    rw [he] at he'
    rcases List.mem_cons.mp he' with rfl | he'
    · exact hcnt
    · exact hunp e (hfilter_sub e he')

lemma shrinkPop_eq_nil {st : LfcState} (h : st.lru = []) : shrinkPop st = st := by
  unfold shrinkPop
  simp [h]

lemma shrinkPop_eq_cons {st : LfcState} {v : BufferTag} {rest : List BufferTag}
    (h : st.lru = v :: rest) :
    shrinkPop st = { st with
      entries := st.entries.filter (fun e => !(e.key == v)),
      lru := rest,
      used := st.used - 1 } := by
  unfold shrinkPop
  simp [h]

lemma shrinkPop_lfcInv {st : LfcState} (hinv : LfcInv st) :
    LfcInv (shrinkPop st) := by
  cases hlru : st.lru with
  | nil => rw [shrinkPop_eq_nil hlru]; exact hinv
  | cons v rest =>
    rw [shrinkPop_eq_cons hlru]
    have hvmem : v ∈ st.lru := by rw [hlru]; exact List.mem_cons_self _ _
    have hvex : ∃ e ∈ st.entries, e.key = v := hinv.lruHasEntry v hvmem
    have hndl : (v :: rest).Nodup := by rw [← hlru]; exact hinv.nodupLru
    have hvnotrest : v ∉ rest := (List.nodup_cons.mp hndl).1
    have hrestnd : rest.Nodup := (List.nodup_cons.mp hndl).2
    have hfsub : ∀ x ∈ st.entries.filter (fun e => !(e.key == v)),
        x ∈ st.entries := fun x hx => List.mem_of_mem_filter hx
    have hfne : ∀ x ∈ st.entries.filter (fun e => !(e.key == v)),
        x.key ≠ v := by
      intro x hx
      have := List.of_mem_filter hx
      simpa using this
    refine ⟨?_, hrestnd, ?_, ?_, ?_, ?_⟩
    · exact hinv.nodupKeys.sublist (List.Sublist.map _ (List.filter_sublist _))
    · intro j hj
      have hjl : j ∈ st.lru := by rw [hlru]; exact List.mem_cons_of_mem _ hj
      obtain ⟨e, hel, hek⟩ := hinv.lruHasEntry j hjl
      have hne : e.key ≠ v := by
        rw [hek]
        intro hjv
        exact hvnotrest (hjv ▸ hj)
      exact ⟨e, List.mem_filter.mpr ⟨hel, by simpa using hne⟩, hek⟩
    · intro e he'
      have hmem := hfsub e he'
      have hne := hfne e he'
      have := hinv.linkIff e hmem
      rw [hlru] at this
      rw [this]
      simp [List.mem_cons, hne]
    · have h1 := length_filter_out_key hinv.nodupKeys hvex
      have h2 := hinv.usedEq
      simp only
      omega
    · have := hinv.usedLeSize
      simp only
      omega

lemma shrinkPop_unpinned {st : LfcState} (h : allUnpinned st) :
    allUnpinned (shrinkPop st) := by
  cases hlru : st.lru with
  | nil => rw [shrinkPop_eq_nil hlru]; exact h
  | cons v rest =>
    rw [shrinkPop_eq_cons hlru]
    intro e he'
    exact h e (List.mem_of_mem_filter he')

lemma shrinkPop_pinned {st : LfcState} (hinv : LfcInv st) :
    ∀ e ∈ st.entries, e.access_count ≠ 0 → e ∈ (shrinkPop st).entries := by
  cases hlru : st.lru with
  | nil => rw [shrinkPop_eq_nil hlru]; exact fun e he _ => he
  | cons v rest =>
    rw [shrinkPop_eq_cons hlru]
    intro e he hne
    refine List.mem_filter.mpr ⟨he, ?_⟩
    have hvmem : v ∈ st.lru := by rw [hlru]; exact List.mem_cons_self _ _
    obtain ⟨ev, hev, hevk⟩ := hinv.lruHasEntry v hvmem
    have hev0 : ev.access_count = 0 := by
      rw [hinv.linkIff ev hev, hevk]
      exact hvmem
    have : e.key ≠ v := by
      intro hk
      have : e = ev := key_unique hinv.nodupKeys he hev (by rw [hk, hevk])
      rw [this] at hne
      exact hne hev0
    simpa using this

lemma shrinkPop_size (st : LfcState) : (shrinkPop st).size = st.size := by
  unfold shrinkPop
  cases st.lru <;> rfl

lemma shrinkLoopFuel_lfcInv (n : Nat) :
    ∀ (fuel : Nat) (st : LfcState), LfcInv st →
      LfcInv (shrinkLoopFuel n fuel st) := by
  intro fuel
  induction fuel with
  | zero => exact fun st h => h
  | succ fuel ih =>
    intro st h
    unfold shrinkLoopFuel
    by_cases hc : n < st.used ∧ st.lru ≠ []
    · rw [if_pos hc]
      exact ih _ (shrinkPop_lfcInv h)
    · rw [if_neg hc]
      exact h

lemma shrinkLoopFuel_unpinned (n : Nat) :
    ∀ (fuel : Nat) (st : LfcState), allUnpinned st →
      allUnpinned (shrinkLoopFuel n fuel st) := by
  intro fuel
  induction fuel with
  | zero => exact fun st h => h
  | succ fuel ih =>
    intro st h
    unfold shrinkLoopFuel
    by_cases hc : n < st.used ∧ st.lru ≠ []
    · rw [if_pos hc]
      exact ih _ (shrinkPop_unpinned h)
    · rw [if_neg hc]
      exact h

lemma shrinkLoopFuel_pinned (n : Nat) :
    ∀ (fuel : Nat) (st : LfcState), LfcInv st →
      ∀ e ∈ st.entries, e.access_count ≠ 0 →
        e ∈ (shrinkLoopFuel n fuel st).entries := by
  intro fuel
  induction fuel with
  | zero => exact fun st _ e he _ => he
  | succ fuel ih =>
    intro st h e he hne
    unfold shrinkLoopFuel
    by_cases hc : n < st.used ∧ st.lru ≠ []
    · rw [if_pos hc]
      exact ih _ (shrinkPop_lfcInv h) e (shrinkPop_pinned h e he hne) hne
    · rw [if_neg hc]
      exact he

lemma shrinkLoopFuel_post (n : Nat) :
    ∀ (fuel : Nat) (st : LfcState), st.lru.length ≤ fuel →
      (shrinkLoopFuel n fuel st).used ≤ n ∨ (shrinkLoopFuel n fuel st).lru = [] := by
  intro fuel
  induction fuel with
  | zero =>
    intro st hlen
    right
    unfold shrinkLoopFuel
    exact List.length_eq_zero.mp (by omega)
  | succ fuel ih =>
    intro st hlen
    unfold shrinkLoopFuel
    by_cases hc : n < st.used ∧ st.lru ≠ []
    · rw [if_pos hc]
      refine ih _ ?_
      cases hlru : st.lru with
      | nil => exact absurd hlru hc.2
      | cons v rest =>
        rw [shrinkPop_eq_cons hlru]
        rw [hlru] at hlen
        simp only [List.length_cons] at hlen
        simpa using by omega
    · rw [if_neg hc]
      by_cases h1 : n < st.used
      · right
        by_contra h2
        exact hc ⟨h1, h2⟩
      · left
        omega

lemma quiescent_applyOp (st : LfcState) (op : LfcOp) (hq : LfcQuiescent st) :
    LfcQuiescent (applyOp st op) := by
  obtain ⟨hinv, hunp⟩ := hq
  have hq' : LfcQuiescent st := ⟨hinv, hunp⟩
  cases op with
  | read r f b =>
    show LfcQuiescent (lfc_read st r f b).1
    by_cases hen : st.sizeLimit = 0
    · unfold lfc_read
      rw [if_pos hen]
      exact hq'
    · cases hfind : findEntry st (chunkTag r f b) with
      | none =>
        unfold lfc_read
        rw [if_neg hen]
        simp only [hfind]
        exact hq'
      | some e =>
        by_cases hbit : e.bitmap (chunkOffs b) = true
        · have h0 := hunp e (findEntry_some hfind).1
          rw [lfc_read_hit_eq st r f b e hen hfind hbit h0]
          have htag : chunkTag r f b ∈ st.lru := by
            have hk := (findEntry_some hfind).2
            have := (hinv.linkIff e (findEntry_some hfind).1).mp h0
            rwa [hk] at this
          exact quiescent_parts st _ (chunkTag r f b) (fun x => x) hq'
            (fun _ => rfl) (fun _ => rfl) (by rw [modifyEntry_id])
            (nodup_erase_append hinv.nodupLru)
            (fun j => mem_erase_append_iff htag j) rfl rfl
        · unfold lfc_read
          rw [if_neg hen]
          simp only [hfind]
          rw [if_neg hbit]
          exact hq'
  | write r f b v =>
    show LfcQuiescent (lfc_write st r f b v)
    by_cases hen : st.sizeLimit = 0
    · unfold lfc_write
      rw [if_pos hen]
      exact hq'
    · cases hfind : findEntry st (chunkTag r f b) with
      | some e =>
        have h0 := hunp e (findEntry_some hfind).1
        rw [lfc_write_found_eq st r f b v e hen hfind h0]
        have htag : chunkTag r f b ∈ st.lru := by
          have hk := (findEntry_some hfind).2
          have := (hinv.linkIff e (findEntry_some hfind).1).mp h0
          rwa [hk] at this
        exact quiescent_parts st _ (chunkTag r f b)
          (fun x => { x with bitmap := setPageBit x.bitmap (chunkOffs b) }) hq'
          (fun _ => rfl) (fun _ => rfl) rfl
          (nodup_erase_append hinv.nodupLru)
          (fun j => mem_erase_append_iff htag j) rfl rfl
      | none =>
        by_cases hcond : SIZE_MB_TO_CHUNKS st.sizeLimit ≤ st.used ∧ st.lru ≠ []
        · obtain ⟨hused, hne⟩ := hcond
          cases hlru : st.lru with
          | nil => exact absurd hlru hne
          | cons vk rest =>
            cases hvf : findEntry st vk with
            | none =>
              exfalso
              obtain ⟨ve, hvel, hvek⟩ := hinv.lruHasEntry vk
                (by rw [hlru]; exact List.mem_cons_self _ _)
              exact findEntry_none hvf ve hvel hvek
            | some ve =>
              rw [lfc_write_new_steal_eq st r f b v vk rest ve hen hfind hused
                hlru hvf]
              refine quiescent_write_steal_parts st _
                ⟨chunkTag r f b, ve.offset, 0,
                  setPageBit freshBitmap (chunkOffs b)⟩ vk rest hq' ?_ rfl hlru
                rfl rfl rfl rfl
              exact fun e' he' => findEntry_none hfind e' he'
        · rw [lfc_write_new_fresh_eq st r f b v hen hfind hcond]
          refine quiescent_write_fresh_parts st _
            ⟨chunkTag r f b, st.size, 0, setPageBit freshBitmap (chunkOffs b)⟩
            hq' ?_ rfl rfl rfl rfl rfl
          exact fun e' he' => findEntry_none hfind e' he'
  | evict r f b g =>
    show LfcQuiescent (lfc_evict st r f b g)
    by_cases hen : st.sizeLimit = 0
    · unfold lfc_evict
      rw [if_pos hen]
      exact hq'
    · cases hfind : findEntry st (chunkTag r f b) with
      | none =>
        unfold lfc_evict
        rw [if_neg hen]
        simp only [hfind]
        exact hq'
      | some e =>
        have h0 := hunp e (findEntry_some hfind).1
        have htag : chunkTag r f b ∈ st.lru := by
          have hk := (findEntry_some hfind).2
          have := (hinv.linkIff e (findEntry_some hfind).1).mp h0
          rwa [hk] at this
        have hparts_same : LfcQuiescent { st with
            entries := modifyEntry st.entries (chunkTag r f b)
              (fun x => { x with
                bitmap := clearPageBit x.bitmap (chunkOffs b) }) } :=
          quiescent_parts st _ (chunkTag r f b)
            (fun x => { x with bitmap := clearPageBit x.bitmap (chunkOffs b) })
            hq' (fun _ => rfl) (fun _ => rfl) rfl hinv.nodupLru
            (fun _ => Iff.rfl) rfl rfl
        have hparts_move : LfcQuiescent { st with
            entries := modifyEntry st.entries (chunkTag r f b)
              (fun x => { x with
                bitmap := clearPageBit x.bitmap (chunkOffs b) }),
            lru := chunkTag r f b :: st.lru.erase (chunkTag r f b) } :=
          quiescent_parts st _ (chunkTag r f b)
            (fun x => { x with bitmap := clearPageBit x.bitmap (chunkOffs b) })
            hq' (fun _ => rfl) (fun _ => rfl) rfl
            (nodup_cons_erase hinv.nodupLru)
            (fun j => mem_cons_erase_iff htag j) rfl rfl
        unfold lfc_evict
        rw [if_neg hen]
        simp only [hfind]
        split
        · split
          · rw [if_neg (by simp : ¬((!true) = true))]
            exact hparts_same
          · split
            · exact hparts_move
            · exact hparts_same
        · exact hparts_same
  | contains r f b => exact hq'
  | setLimit mb =>
    show LfcQuiescent (lfc_set_size_limit st mb)
    unfold lfc_set_size_limit
    by_cases hc : st.maxSize < mb
    · rw [if_pos hc]
      exact hq'
    · rw [if_neg hc]
      unfold lfc_change_limit_hook
      have hinv2 : LfcInv { st with sizeLimit := mb } :=
        ⟨hinv.nodupKeys, hinv.nodupLru, hinv.lruHasEntry, hinv.linkIff,
          hinv.usedEq, hinv.usedLeSize⟩
      have hunp2 : allUnpinned { st with sizeLimit := mb } := hunp
      exact ⟨shrinkLoopFuel_lfcInv _ _ _ hinv2,
        shrinkLoopFuel_unpinned _ _ _ hunp2⟩

lemma quiescent_applyOps :
    ∀ (ops : List LfcOp) (st : LfcState), LfcQuiescent st →
      LfcQuiescent (applyOps st ops)
  | [], _, hq => hq
  | op :: rest, st, hq =>
    quiescent_applyOps rest _ (quiescent_applyOp st op hq)

@[simp] lemma writeFinish_used (st : LfcState) (k : BufferTag) (i : Nat) :
    (writeFinish st k i).used = st.used := by
  simp only [writeFinish]
  split
  · simp
  · simp

@[simp] lemma writeFinish_size (st : LfcState) (k : BufferTag) (i : Nat) :
    (writeFinish st k i).size = st.size := by
  simp only [writeFinish]
  split
  · simp
  · simp

lemma lfc_read_used (st : LfcState) (r f b : Nat) :
    ((lfc_read st r f b).1).used = st.used := by
  unfold lfc_read
  by_cases hen : st.sizeLimit = 0
  · rw [if_pos hen]
  · rw [if_neg hen]
    cases hfind : findEntry st (chunkTag r f b) with
    | none => simp [hfind]
    | some e =>
      simp only [hfind]
      by_cases hbit : e.bitmap (chunkOffs b) = true
      · rw [if_pos hbit]
        simp
      · rw [if_neg hbit]

lemma writeAdmitNew_used_ge (st : LfcState) (k : BufferTag) :
    st.used ≤ ((writeAdmitNew st k).1).used := by
  unfold writeAdmitNew
  by_cases hc : SIZE_MB_TO_CHUNKS st.sizeLimit ≤ st.used ∧ st.lru ≠ []
  · rw [if_pos hc]
    cases st.lru with
    | nil => exact Nat.le_refl _
    | cons v rest => exact Nat.le_refl _
  · rw [if_neg hc]
    exact Nat.le_succ _

lemma lfc_write_used_ge (st : LfcState) (r f b v : Nat) :
    st.used ≤ (lfc_write st r f b v).used := by
  unfold lfc_write
  by_cases hen : st.sizeLimit = 0
  · rw [if_pos hen]
  · rw [if_neg hen]
    cases hfind : findEntry st (chunkTag r f b) with
    | some e =>
      simp only [hfind, writeFinish_used, slabWrite_used, pinEntry_used]
      exact Nat.le_refl _
    | none =>
      simp only [hfind, writeFinish_used, slabWrite_used]
      exact writeAdmitNew_used_ge st _

lemma lfc_evict_used (st : LfcState) (r f b : Nat) (g : Bool) :
    (lfc_evict st r f b g).used = st.used := by
  unfold lfc_evict
  by_cases hen : st.sizeLimit = 0
  · rw [if_pos hen]
  · rw [if_neg hen]
    cases hfind : findEntry st (chunkTag r f b) with
    | none => simp [hfind]
    | some e =>
      simp only [hfind]
      split
      · split
        · rfl
        · split <;> rfl
      · rfl

/-- C4: the shrink loop of lfc_change_limit_hook terminates with `used` at or
below the new chunk target unless only pinned chunks remain, it never removes
a pinned chunk, and no other cache operation (read, write, evict; contains
mutates nothing) decreases `used`. -/
theorem lfc_shrink_to_target :
    (∀ (st : LfcState) (mb : Nat), LfcInv st →
      ((lfc_change_limit_hook st mb).used ≤ SIZE_MB_TO_CHUNKS mb
        ∨ ∀ e ∈ (lfc_change_limit_hook st mb).entries, e.access_count ≠ 0))
    ∧ (∀ (st : LfcState) (mb : Nat), LfcInv st →
      ∀ e ∈ st.entries, e.access_count ≠ 0 →
        e ∈ (lfc_change_limit_hook st mb).entries)
    ∧ (∀ (st : LfcState) (r f b v : Nat) (g : Bool),
      st.used ≤ ((lfc_read st r f b).1).used
      ∧ st.used ≤ (lfc_write st r f b v).used
      ∧ st.used ≤ (lfc_evict st r f b g).used) := by
  refine ⟨?_, ?_, ?_⟩
  · intro st mb hinv
    unfold lfc_change_limit_hook
    have hinv' := shrinkLoopFuel_lfcInv (SIZE_MB_TO_CHUNKS mb) st.lru.length st hinv
    rcases shrinkLoopFuel_post (SIZE_MB_TO_CHUNKS mb) st.lru.length st
      (Nat.le_refl _) with h | h
    · exact Or.inl h
    · refine Or.inr (fun e he => ?_)
      intro h0
      have := (hinv'.linkIff e he).mp h0
      rw [h] at this
      simp at this
  · intro st mb hinv e he hne
    unfold lfc_change_limit_hook
    exact shrinkLoopFuel_pinned _ _ _ hinv e he hne
  · intro st r f b v g
    exact ⟨Nat.le_of_eq (lfc_read_used st r f b).symm,
      lfc_write_used_ge st r f b v,
      Nat.le_of_eq (lfc_evict_used st r f b g).symm⟩

/-- Witness for C4 at the beyond-limit demo state and concrete operations. -/
theorem lfc_shrink_to_target_witness :
    ((lfc_change_limit_hook evictDemoState 1).used ≤ SIZE_MB_TO_CHUNKS 1
      ∨ ∀ e ∈ (lfc_change_limit_hook evictDemoState 1).entries,
          e.access_count ≠ 0)
    ∧ (⟨⟨1, 0, 0⟩, 0, 1, freshBitmap⟩ : FileCacheEntry) ∈
        (lfc_change_limit_hook pinnedDemoState 0).entries
    ∧ (evictDemoState.used ≤ ((lfc_read evictDemoState 1 0 0).1).used
      ∧ evictDemoState.used ≤ (lfc_write evictDemoState 1 0 0 9).used
      ∧ evictDemoState.used ≤ (lfc_evict evictDemoState 1 0 0 false).used) :=
  ⟨lfc_shrink_to_target.1 evictDemoState 1
      ⟨by decide, by decide, by decide, by decide, by decide, by decide⟩,
   lfc_shrink_to_target.2.1 pinnedDemoState 0
      ⟨by decide, by decide, by decide, by decide, by decide, by decide⟩
      ⟨⟨1, 0, 0⟩, 0, 1, freshBitmap⟩ (List.mem_cons_self _ _) (by decide),
   lfc_shrink_to_target.2.2 evictDemoState 1 0 0 9 false⟩

/-- C6 counterexample: the sequence write, shrink to zero, raise the limit
back, write again leaves `ctl.size = 2` although the slab capacity derived
from `max_file_cache_size = 1MB` is one chunk: shrink leaks the victim's slot
(`size` never decreases and the offset is abandoned), so
`ctl.size ≤ capacity_chunks` is false. -/
theorem lfc_size_capacity_counterexample :
    ¬ ((applyOps (initState 1 1)
        [LfcOp.write 1 0 0 7, LfcOp.setLimit 0, LfcOp.setLimit 1,
         LfcOp.write 2 0 0 8]).size ≤
      SIZE_MB_TO_CHUNKS (initState 1 1).maxSize) := by
  decide

/-- C6 (amended): after every operation sequence from the initial state,
`ctl.used` equals the number of entries in the index and
`ctl.used ≤ ctl.size`; the spec's further bound `ctl.size ≤ capacity_chunks`
does not hold because shrinking abandons slots. -/
theorem lfc_accounting_invariant :
    ∀ (M L : Nat) (ops : List LfcOp),
      (applyOps (initState M L) ops).used =
        (applyOps (initState M L) ops).entries.length
      ∧ (applyOps (initState M L) ops).used ≤ (applyOps (initState M L) ops).size := by
  intro M L ops
  have hq := quiescent_applyOps ops (initState M L) (quiescent_init M L)
  exact ⟨hq.1.usedEq, hq.1.usedLeSize⟩

/-- C5: after every operation sequence from the initial state an entry is
linked in the LRU iff its access_count is zero; moreover the pin critical
section detaches exactly on the 0 to 1 transition (leaving the key outside the
LRU and the count at one), leaves the LRU untouched when the count was already
positive, and the unpin critical section relinks exactly on the 1 to 0
transition (appending the key at the LRU tail) and leaves the LRU untouched
when the count stays positive. -/
theorem lfc_pin_lru_invariant :
    (∀ (M L : Nat) (ops : List LfcOp),
      ∀ e ∈ (applyOps (initState M L) ops).entries,
        (e.access_count = 0 ↔ e.key ∈ (applyOps (initState M L) ops).lru))
    ∧ (∀ (st : LfcState) (k : BufferTag) (e : FileCacheEntry),
        st.lru.Nodup → findEntry st k = some e →
        ((e.access_count = 0 →
           (pinEntry st k).lru = st.lru.erase k
           ∧ k ∉ (pinEntry st k).lru
           ∧ findEntry (pinEntry st k) k = some (bumpPin e))
         ∧ (e.access_count ≠ 0 → (pinEntry st k).lru = st.lru)))
    ∧ (∀ (st : LfcState) (k : BufferTag) (e : FileCacheEntry),
        findEntry st k = some e →
        ((e.access_count = 1 →
           (unpinEntry st k).lru = st.lru ++ [k]
           ∧ findEntry (unpinEntry st k) k = some (dropPin e))
         ∧ (2 ≤ e.access_count → (unpinEntry st k).lru = st.lru))) := by
  refine ⟨?_, ?_, ?_⟩
  · intro M L ops
    exact (quiescent_applyOps ops (initState M L) (quiescent_init M L)).1.linkIff
  · intro st k e hnd hfind
    have hkey := (findEntry_some hfind).2
    have hfind2 : findEntry { st with
        entries := modifyEntry st.entries k bumpPin,
        lru := if e.access_count = 0 then st.lru.erase k else st.lru } k =
        some (bumpPin e) := by
      show (modifyEntry st.entries k bumpPin).find? (fun x => x.key == k) =
        some (bumpPin e)
      rw [find?_modifyEntry bumpPin_key k]
      unfold findEntry at hfind
      rw [hfind]
      simp [hkey]
    constructor
    · intro h0
      have hpin : pinEntry st k = { st with
          entries := modifyEntry st.entries k bumpPin,
          lru := st.lru.erase k } := by
        unfold pinEntry
        simp only [hfind]
        rw [if_pos h0]
      refine ⟨by rw [hpin], ?_, ?_⟩
      · rw [hpin]
        exact fun hmem => ((hnd.mem_erase_iff).mp hmem).1 rfl
      · rw [hpin]
        rw [show ({ st with
            entries := modifyEntry st.entries k bumpPin,
            lru := st.lru.erase k } : LfcState) =
          { st with
            entries := modifyEntry st.entries k bumpPin,
            lru := if e.access_count = 0 then st.lru.erase k else st.lru }
          from by rw [if_pos h0]]
        exact hfind2
    · intro h0
      unfold pinEntry
      simp only [hfind]
      rw [if_neg h0]
  · intro st k e hfind
    have hkey := (findEntry_some hfind).2
    have hfind3 : ∀ lru2 : List BufferTag, findEntry { st with
        entries := modifyEntry st.entries k dropPin, lru := lru2 } k =
        some (dropPin e) := by
      intro lru2
      show (modifyEntry st.entries k dropPin).find? (fun x => x.key == k) =
        some (dropPin e)
      rw [find?_modifyEntry dropPin_key k]
      unfold findEntry at hfind
      rw [hfind]
      simp [hkey]
    constructor
    · intro h1
      have hun : unpinEntry st k = { st with
          entries := modifyEntry st.entries k dropPin,
          lru := st.lru ++ [k] } := by
        unfold unpinEntry
        simp only [hfind]
        rw [if_pos h1]
      exact ⟨by rw [hun], by rw [hun]; exact hfind3 _⟩
    · intro h2
      unfold unpinEntry
      simp only [hfind]
      rw [if_neg (by omega)]

/-- Witness for C5: one write from the initial state, a pin of an unpinned
entry, a pin of a pinned entry, and unpins at counts one and two. -/
theorem lfc_pin_lru_invariant_witness :
    (∀ e ∈ (applyOps (initState 1 1) [LfcOp.write 1 0 0 5]).entries,
      (e.access_count = 0 ↔
        e.key ∈ (applyOps (initState 1 1) [LfcOp.write 1 0 0 5]).lru))
    ∧ ((pinEntry evictDemoState ⟨1, 0, 0⟩).lru = evictDemoState.lru.erase ⟨1, 0, 0⟩
      ∧ (⟨1, 0, 0⟩ : BufferTag) ∉ (pinEntry evictDemoState ⟨1, 0, 0⟩).lru
      ∧ findEntry (pinEntry evictDemoState ⟨1, 0, 0⟩) ⟨1, 0, 0⟩ =
          some (bumpPin ⟨⟨1, 0, 0⟩, 0, 0, setPageBit freshBitmap 0⟩))
    ∧ ((unpinEntry pinnedDemoState ⟨1, 0, 0⟩).lru = pinnedDemoState.lru ++ [⟨1, 0, 0⟩]
      ∧ findEntry (unpinEntry pinnedDemoState ⟨1, 0, 0⟩) ⟨1, 0, 0⟩ =
          some (dropPin ⟨⟨1, 0, 0⟩, 0, 1, freshBitmap⟩))
    ∧ (unpinEntry pinnedDemoState ⟨2, 0, 0⟩).lru = pinnedDemoState.lru :=
  ⟨lfc_pin_lru_invariant.1 1 1 [LfcOp.write 1 0 0 5],
   (lfc_pin_lru_invariant.2.1 evictDemoState ⟨1, 0, 0⟩
      ⟨⟨1, 0, 0⟩, 0, 0, setPageBit freshBitmap 0⟩ (by decide) rfl).1 rfl,
   (lfc_pin_lru_invariant.2.2 pinnedDemoState ⟨1, 0, 0⟩
      ⟨⟨1, 0, 0⟩, 0, 1, freshBitmap⟩ rfl).1 rfl,
   (lfc_pin_lru_invariant.2.2 pinnedDemoState ⟨2, 0, 0⟩
      ⟨⟨2, 0, 0⟩, 1, 2, freshBitmap⟩ rfl).2 (by decide)⟩

/-- C2: admission in lfc_write for a key absent from the index.  When
`used >= SIZE_MB_TO_CHUNKS(size_limit)` and the LRU is non-empty, the LRU head
(an entry with access_count 0) is popped, removed from the index, and its
offset reused by the new entry, with `used` and `size` unchanged; otherwise
(in particular whenever the LRU is empty) a fresh slot is allocated with
`offset = size`, `size + 1` and `used + 1`, so `ctl.size` may grow past the
soft limit rather than the write blocking or failing. -/
theorem lfc_write_admission (st : LfcState) (r f b v : Nat)
    (hinv : LfcInv st) (hen : st.sizeLimit ≠ 0)
    (hnew : findEntry st (chunkTag r f b) = none) :
    (∀ (vk : BufferTag) (rest : List BufferTag),
      st.lru = vk :: rest → SIZE_MB_TO_CHUNKS st.sizeLimit ≤ st.used →
      ∃ ve ∈ st.entries, ve.key = vk ∧ ve.access_count = 0
        ∧ (lfc_write st r f b v).used = st.used
        ∧ (lfc_write st r f b v).size = st.size
        ∧ findEntry (lfc_write st r f b v) vk = none
        ∧ ∃ ne, findEntry (lfc_write st r f b v) (chunkTag r f b) = some ne
            ∧ ne.offset = ve.offset)
    ∧ ((st.lru = [] ∨ st.used < SIZE_MB_TO_CHUNKS st.sizeLimit) →
      (lfc_write st r f b v).used = st.used + 1
      ∧ (lfc_write st r f b v).size = st.size + 1
      ∧ ∃ ne, findEntry (lfc_write st r f b v) (chunkTag r f b) = some ne
          ∧ ne.offset = st.size) := by
  constructor
  · intro vk rest hlru hused
    cases hvf : findEntry st vk with
    | none =>
      exfalso
      obtain ⟨ve, hvel, hvek⟩ := hinv.lruHasEntry vk
        (by rw [hlru]; exact List.mem_cons_self _ _)
      exact findEntry_none hvf ve hvel hvek
    | some ve =>
      obtain ⟨hvel, hvek⟩ := findEntry_some hvf
      have hv0 : ve.access_count = 0 := by
        rw [hinv.linkIff ve hvel, hvek, hlru]
        exact List.mem_cons_self _ _
      have hne : chunkTag r f b ≠ vk := by
        intro h
        exact findEntry_none hnew ve hvel (by rw [hvek, h])
      have hsteal := lfc_write_new_steal_eq st r f b v vk rest ve hen hnew
        hused hlru hvf
      refine ⟨ve, hvel, hvek, hv0, ?_, ?_, ?_, ?_⟩
      · rw [hsteal]
        rfl
      · rw [hsteal]
        rfl
      · rw [hsteal]
        show ((⟨chunkTag r f b, ve.offset, 0,
            setPageBit freshBitmap (chunkOffs b)⟩ : FileCacheEntry) ::
            st.entries.filter (fun e => !(e.key == vk))).find?
            (fun e => e.key == vk) = none
        rw [List.find?_cons_of_neg _ (by simpa using hne)]
        refine List.find?_eq_none.mpr (fun x hx => ?_)
        have := List.of_mem_filter hx
        simpa using this
      · refine ⟨⟨chunkTag r f b, ve.offset, 0,
          setPageBit freshBitmap (chunkOffs b)⟩, ?_, rfl⟩
        rw [hsteal]
        exact List.find?_cons_of_pos _ (by simp)
  · intro hdisj
    have hcond : ¬(SIZE_MB_TO_CHUNKS st.sizeLimit ≤ st.used ∧ st.lru ≠ []) := by
      rcases hdisj with h | h
      · intro hc
        exact hc.2 h
      · intro hc
        omega
    have hfresh := lfc_write_new_fresh_eq st r f b v hen hnew hcond
    refine ⟨by rw [hfresh]; rfl, by rw [hfresh]; rfl, ?_⟩
    refine ⟨⟨chunkTag r f b, st.size, 0,
      setPageBit freshBitmap (chunkOffs b)⟩, ?_, rfl⟩
    rw [hfresh]
    exact List.find?_cons_of_pos _ (by simp)

/-- Witness for C2: stealing admission on a full two-chunk cache, and fresh
allocation from the empty initial state. -/
theorem lfc_write_admission_witness :
    (∃ ve ∈ evictDemoState.entries, ve.key = ⟨2, 0, 0⟩ ∧ ve.access_count = 0
      ∧ (lfc_write evictDemoState 3 0 0 9).used = evictDemoState.used
      ∧ (lfc_write evictDemoState 3 0 0 9).size = evictDemoState.size
      ∧ findEntry (lfc_write evictDemoState 3 0 0 9) ⟨2, 0, 0⟩ = none
      ∧ ∃ ne, findEntry (lfc_write evictDemoState 3 0 0 9) (chunkTag 3 0 0) =
          some ne ∧ ne.offset = ve.offset)
    ∧ ((lfc_write (initState 1 1) 1 0 0 7).used = (initState 1 1).used + 1
      ∧ (lfc_write (initState 1 1) 1 0 0 7).size = (initState 1 1).size + 1
      ∧ ∃ ne, findEntry (lfc_write (initState 1 1) 1 0 0 7) (chunkTag 1 0 0) =
          some ne ∧ ne.offset = (initState 1 1).size) :=
  ⟨(lfc_write_admission evictDemoState 3 0 0 9
      ⟨by decide, by decide, by decide, by decide, by decide, by decide⟩
      (by decide) rfl).1 ⟨2, 0, 0⟩ [⟨1, 0, 0⟩] rfl (by decide),
   (lfc_write_admission (initState 1 1) 1 0 0 7
      ⟨by decide, by decide, by decide, by decide, by decide, by decide⟩
      (by decide) rfl).2 (Or.inl rfl)⟩

/-- C1: from a fresh cache whose size limit is at least one chunk, a write of
any page followed by a read of the same page hits (the read returns a page,
i.e. C's `true`) and returns exactly the written buffer. -/
theorem lfc_write_read_roundtrip (M L r f b buf : Nat) (h : 1 ≤ L) :
    (lfc_read (lfc_write (initState M L) r f b buf) r f b).2 = some buf := by
  have hen : (initState M L).sizeLimit ≠ 0 := by
    simp only [initState]
    omega
  have hnone : findEntry (initState M L) (chunkTag r f b) = none := rfl
  have hcond : ¬(SIZE_MB_TO_CHUNKS (initState M L).sizeLimit ≤
      (initState M L).used ∧ (initState M L).lru ≠ []) := by
    intro hc
    exact hc.2 rfl
  rw [lfc_write_new_fresh_eq (initState M L) r f b buf hen hnone hcond]
  have hfindW : findEntry (slabWrite { initState M L with
      entries := ⟨chunkTag r f b, (initState M L).size, 0,
        setPageBit freshBitmap (chunkOffs b)⟩ :: (initState M L).entries,
      lru := (initState M L).lru ++ [chunkTag r f b],
      used := (initState M L).used + 1,
      size := (initState M L).size + 1 } (initState M L).size (chunkOffs b) buf)
      (chunkTag r f b) =
      some ⟨chunkTag r f b, (initState M L).size, 0,
        setPageBit freshBitmap (chunkOffs b)⟩ :=
    List.find?_cons_of_pos _ (by simp)
  rw [lfc_read_hit_eq _ r f b _ (by exact hen) hfindW
    (by simp [setPageBit]) rfl]
  simp [slabWrite]

/-- Witness for C1 at a one-chunk cache, block 5, buffer 42. -/
theorem lfc_write_read_roundtrip_witness :
    (lfc_read (lfc_write (initState 1 1) 0 0 5 42) 0 0 5).2 = some 42 :=
  lfc_write_read_roundtrip 1 1 0 0 5 42 (by decide)
